import Mathlib

/-!
Verification of `mcrpy/smooth.py`: a multiphase smoothing routine over a
voxelized microstructure.

The spatial grid is modelled as a 2D torus `ZMod m × ZMod n` (the source
treats the grid as periodic; the spec allows 2D or 3D, we fix the 2D case).
Array values are real numbers (`np.float64` is modelled by `ℝ`); the one-hot
encoding of shape `spatial_shape + (P,)` is a function
`Grid m n → Fin P → ℝ`.  The leading batch axis that
`x.numpy()[0]` strips and `reshape` restores is dropped from the model, as it
carries no information.  Python exceptions are modelled by `Except`.
-/

namespace Mcrpy

noncomputable section

/-- The periodic 2D spatial grid (torus) of an `m × n` microstructure. -/
abbrev Grid (m n : ℕ) : Type := ZMod m × ZMod n

/-- `np.round` applied to a scalar: round half to even (banker's rounding),
which is NumPy's rounding mode.  `round` in Mathlib rounds half away from
floor, so the half-integer case is handled separately. -/
def npRound (x : ℝ) : ℤ :=
  if Int.fract x = 1 / 2 then (if ⌊x⌋ % 2 = 0 then ⌊x⌋ else ⌊x⌋ + 1) else round x

/-- `np.argmax` over a vector indexed by `Fin P`: the index of the first
maximal entry (NumPy returns the first occurrence on ties). -/
def npArgmax {P : ℕ} [NeZero P] (v : Fin P → ℝ) : Fin P :=
  ((List.finRange P).argmax v).getD ⟨0, Nat.pos_of_neZero P⟩

/-- Modelled from the spec: the centered integer representative of a
wrap-around offset on `ZMod n`, used to measure toroidal distance along one
axis for the periodic (mode `wrap`) filter. -/
def centeredRep (n : ℕ) (d : ZMod n) : ℤ :=
  if 2 * d.val ≤ n then (d.val : ℤ) else (d.val : ℤ) - n

/-- Modelled from the spec: unnormalized 1D Gaussian weight of standard
deviation `strength` at integer offset `r`. -/
def gaussWeight (strength : ℝ) (r : ℤ) : ℝ :=
  Real.exp (-((r : ℝ) ^ 2) / (2 * strength ^ 2))

/-- Modelled from the spec: unnormalized isotropic 2D Gaussian weight at a
toroidal offset `d`, the product of the per-axis weights (so the exponent is
`-(r₁² + r₂²) / (2·strength²)`, a function of the squared toroidal distance). -/
def gaussKernel {m n : ℕ} (strength : ℝ) (d : Grid m n) : ℝ :=
  gaussWeight strength (centeredRep m d.1) * gaussWeight strength (centeredRep n d.2)

/-- Modelled from the spec: `scipy.ndimage.gaussian_filter(field, strength,
mode='wrap')`, an external library call — an isotropic Gaussian blur of
standard deviation `strength` with periodic wrap-around boundary handling,
i.e. circular convolution with the normalized Gaussian kernel on the torus. -/
def gaussian_filter {m n : ℕ} [NeZero m] [NeZero n]
    (field : Grid m n → ℝ) (strength : ℝ) : Grid m n → ℝ :=
  fun x => (∑ y, gaussKernel strength (x - y) * field y) / ∑ d : Grid m n, gaussKernel strength d

/-- `gaussian_smoothing` (smooth.py, lines 28-30): apply `gaussian_filter`
with `mode='wrap'`, then `np.round` the result. -/
def gaussian_smoothing {m n : ℕ} [NeZero m] [NeZero n]
    (microstructure : Grid m n → ℝ) (strength : ℝ) : Grid m n → ℝ :=
  fun x => (npRound (gaussian_filter microstructure strength x) : ℝ)

/-- Modelled from the spec: the external `Microstructure` collaborator
(`mcrpy.src.Microstructure`, not under `src/`).  It carries the readiness
flag `has_phases` and the one-hot multiphase encoding that the scoped
accessor `use_multiphase_encoding` yields and writes back on scope exit. -/
structure Microstructure (m n P : ℕ) where
  has_phases : Bool
  encoding : Grid m n → Fin P → ℝ

/-- A one-hot (indicator) encoding: at every spatial location exactly one
phase has value 1 and all others have value 0. -/
def isOneHot {m n P : ℕ} (enc : Grid m n → Fin P → ℝ) : Prop :=
  ∀ x, ∃ p, enc x p = 1 ∧ ∀ q, q ≠ p → enc x q = 0

/-- Per-phase volume fractions (smooth.py, line 45):
`np.average(ms_encoded[..., phase])`, the spatial mean of one phase's slice. -/
def vfs {m n P : ℕ} [NeZero m] [NeZero n]
    (enc : Grid m n → Fin P → ℝ) (phase : Fin P) : ℝ :=
  (∑ x, enc x phase) / (Fintype.card (Grid m n) : ℝ)

/-- `largest_phase = np.argmax(vfs)` (smooth.py, line 46). -/
def largest_phase {m n P : ℕ} [NeZero m] [NeZero n] [NeZero P]
    (enc : Grid m n → Fin P → ℝ) : Fin P :=
  npArgmax (fun phase => vfs enc phase)

/-- The running-subtraction loop of smooth.py, lines 49-54: start from an
all-ones field and, for each phase in order except `largest`, subtract that
phase's smoothed slice. -/
def runningSubtraction {m n P : ℕ} (slices : Fin P → Grid m n → ℝ)
    (largest : Fin P) : Grid m n → ℝ :=
  fun x =>
    (List.finRange P).foldl
      (fun acc phase => if phase = largest then acc else acc - slices phase x) 1

/-- The spec's description of the reconstructed dominant slice: `1 - sum(all
other smoothed slices)`.  This definition follows the spec's words; the
source's running subtraction is `runningSubtraction`. -/
def complementOfOthers {m n P : ℕ} (slices : Fin P → Grid m n → ℝ)
    (largest : Fin P) : Grid m n → ℝ :=
  fun x => 1 - ∑ p ∈ Finset.univ.erase largest, slices p x

/-- `_smooth_multiphase` (smooth.py, lines 42-56) as a pure function on the
encoding: every phase except `largest_phase` is smoothed by `f` (the slice is
already real-valued, so `astype(np.float64)` is the identity here), and
`largest_phase`'s slice is the running subtraction of the others from ones. -/
def smooth_multiphase {m n P : ℕ} [NeZero m] [NeZero n] [NeZero P]
    (enc : Grid m n → Fin P → ℝ)
    (f : (Grid m n → ℝ) → ℝ → Grid m n → ℝ) (strength : ℝ) :
    Grid m n → Fin P → ℝ :=
  fun x phase =>
    if phase = largest_phase enc then
      runningSubtraction (fun p => f (fun y => enc y p) strength) (largest_phase enc) x
    else
      f (fun y => enc y phase) strength x

/-- The failure modes of `smooth` (smooth.py, lines 33 and 37): the failed
`assert microstructure.has_phases`, and the `NotImplementedError` raised for
an unimplemented method. -/
inductive SmoothError
  | preconditionViolation
  | unsupportedMethod (msg : String)

/-- The message of the `NotImplementedError` raised in smooth.py, line 37. -/
def unsupportedMessage (method : String) : String :=
  "Smoothing method " ++ method ++ " was chosen, but is not implemented."

/-- True exactly when a `smooth` outcome is an `UnsupportedMethod` failure. -/
def isUnsupportedFailure {m n P : ℕ} :
    Except SmoothError (Microstructure m n P) → Bool
  | Except.error (SmoothError.unsupportedMethod _) => true
  | _ => false

/-- `smooth` (smooth.py, lines 32-40).  The order of the checks follows the
source: the assertion on `has_phases` runs first, then the method dispatch;
only then is the scoped accessor entered and `_smooth_multiphase` applied.
An error outcome means the accessor was never entered and the encoding was
not mutated. -/
def smooth {m n P : ℕ} [NeZero m] [NeZero n] [NeZero P]
    (ms : Microstructure m n P) (method : String) (strength : ℝ) :
    Except SmoothError (Microstructure m n P) :=
  if ms.has_phases then
    if method = "gaussian" then
      Except.ok { ms with encoding := smooth_multiphase ms.encoding gaussian_smoothing strength }
    else
      Except.error (SmoothError.unsupportedMethod (unsupportedMessage method))
  else
    Except.error SmoothError.preconditionViolation

/-- `filename_additive` (smooth.py, line 70): empty without an info tag,
`'_' + info` with one.  Filenames are modelled as `List Char`, matching
Python's character-based string slicing. -/
def filenameAdditive (info : Option (List Char)) : List Char :=
  match info with
  | none => []
  | some i => '_' :: i

/-- The output filename derivation of smooth.py, line 71:
`microstructure_filename[:-4] + filename_additive + '_smoothed.npy'`. -/
def outputFilename (input : List Char) (info : Option (List Char)) : List Char :=
  input.take (input.length - 4) ++ filenameAdditive info ++ "_smoothed.npy".data

/-- The failure modes of `main` (smooth.py, lines 61-64): the two
`ValueError`s of the input-file validation, and a propagated `smooth`
failure. -/
inductive MainError
  | invalidInputFile (msg : List Char)
  | smoothFailed (e : SmoothError)

/-- `main` (smooth.py, lines 58-72) as a pure function.  File existence and
the loaded `Microstructure` are inputs (file I/O is external).  `methodArg`
and `strengthArg` are the parsed `--method` and `--strength` options; the
source never reads them: `smooth(ms)` is called with its defaults
`method='gaussian'`, `strength=1.0` (line 68). -/
def mainModel {m n P : ℕ} [NeZero m] [NeZero n] [NeZero P]
    (fileExistsFlag : Bool) (filename : List Char)
    (methodArg strengthArg : String) (info : Option (List Char))
    (ms : Microstructure m n P) :
    Except MainError (List Char × Microstructure m n P) :=
  if fileExistsFlag = false then
    Except.error (MainError.invalidInputFile
      ("Given file ".data ++ filename ++ " does not exist!".data))
  else if (".npy".data.isSuffixOf filename) = false then
    Except.error (MainError.invalidInputFile
      ("Given file ".data ++ filename ++ " should be a .npy-file!".data))
  else
    match smooth ms "gaussian" 1 with
    | Except.error e => Except.error (MainError.smoothFailed e)
    | Except.ok ms2 => Except.ok (outputFilename filename info, ms2)

/-- A concrete one-hot 4×4 two-phase encoding: phase 0 everywhere. -/
def enc0 : Grid 4 4 → Fin 2 → ℝ := fun _ p => if p = 0 then 1 else 0

/-- A concrete ready microstructure used to instantiate theorems. -/
def ms0 : Microstructure 4 4 2 := { has_phases := true, encoding := enc0 }

/-- A concrete microstructure without phase information. -/
def msNoPhases : Microstructure 4 4 2 := { has_phases := false, encoding := enc0 }

/-- The result of smoothing `ms0` with the gaussian method at strength 1. -/
def ms0smoothed : Microstructure 4 4 2 :=
  { has_phases := true, encoding := smooth_multiphase enc0 gaussian_smoothing 1 }

/-- A concrete constant-zero field used to instantiate the filter contract. -/
def field0 : Grid 4 4 → ℝ := fun _ => 0

end

end Mcrpy

namespace Mcrpy

/-! ### Helper lemmas -/

lemma npArgmax_argmax_eq {P : ℕ} [NeZero P] (v : Fin P → ℝ) :
    (List.finRange P).argmax v = some (npArgmax v) := by
  cases h : (List.finRange P).argmax v with
  | none =>
      rw [List.argmax_eq_none] at h
      have hlen : P = 0 := by simpa using congrArg List.length h
      exact absurd hlen (NeZero.ne P)
  | some a => simp [npArgmax, h]

lemma npArgmax_le {P : ℕ} [NeZero P] (v : Fin P → ℝ) (j : Fin P) :
    v j ≤ v (npArgmax v) :=
  List.le_of_mem_argmax (List.mem_finRange j) (Option.mem_def.mpr (npArgmax_argmax_eq v))

lemma npArgmax_first {P : ℕ} [NeZero P] (v : Fin P → ℝ) (j : Fin P)
    (h : v (npArgmax v) ≤ v j) : npArgmax v ≤ j := by
  have hidx := List.index_of_argmax (Option.mem_def.mpr (npArgmax_argmax_eq v))
    (List.mem_finRange j) h
  rwa [List.indexOf_finRange, List.indexOf_finRange] at hidx

lemma foldl_if_sub {P : ℕ} (g : Fin P → ℝ) (L : Fin P) :
    ∀ (l : List (Fin P)) (init : ℝ),
      l.foldl (fun acc p => if p = L then acc else acc - g p) init
        = init - ((l.map fun p => if p = L then 0 else g p).sum) := by
  intro l
  induction l with
  | nil => intro init; simp
  | cons p l ih =>
      intro init
      simp only [List.foldl_cons, List.map_cons, List.sum_cons]
      by_cases hp : p = L
      · rw [if_pos hp, if_pos hp, ih]; ring
      · rw [if_neg hp, if_neg hp, ih]; ring

lemma runningSubtraction_eq {m n P : ℕ} (slices : Fin P → Grid m n → ℝ)
    (L : Fin P) (x : Grid m n) :
    runningSubtraction slices L x = 1 - ∑ p ∈ Finset.univ.erase L, slices p x := by
  unfold runningSubtraction
  rw [foldl_if_sub]
  congr 1
  calc ((List.finRange P).map fun p => if p = L then (0:ℝ) else slices p x).sum
      = ∑ p, (if p = L then (0:ℝ) else slices p x) := (Fin.sum_univ_def _).symm
    _ = (if L = L then (0:ℝ) else slices L x)
          + ∑ p ∈ Finset.univ.erase L, (if p = L then (0:ℝ) else slices p x) :=
        (Finset.add_sum_erase _ _ (Finset.mem_univ L)).symm
    _ = ∑ p ∈ Finset.univ.erase L, slices p x := by
        rw [if_pos rfl, zero_add]
        exact Finset.sum_congr rfl fun p hp => if_neg (Finset.ne_of_mem_erase hp)

lemma smooth_multiphase_sum_one {m n P : ℕ} [NeZero m] [NeZero n] [NeZero P]
    (enc : Grid m n → Fin P → ℝ) (f : (Grid m n → ℝ) → ℝ → Grid m n → ℝ)
    (strength : ℝ) (x : Grid m n) :
    ∑ p, smooth_multiphase enc f strength x p = 1 := by
  rw [← Finset.add_sum_erase Finset.univ _ (Finset.mem_univ (largest_phase enc))]
  have h1 : smooth_multiphase enc f strength x (largest_phase enc)
      = 1 - ∑ p ∈ Finset.univ.erase (largest_phase enc),
            f (fun y => enc y p) strength x := by
    simp only [smooth_multiphase, if_pos rfl]
    exact runningSubtraction_eq _ _ x
  have h2 : ∀ p ∈ Finset.univ.erase (largest_phase enc),
      smooth_multiphase enc f strength x p = f (fun y => enc y p) strength x := by
    intro p hp
    simp only [smooth_multiphase, if_neg (Finset.ne_of_mem_erase hp)]
  rw [h1, Finset.sum_congr rfl h2]
  ring

lemma npRound_zero : npRound 0 = 0 := by
  unfold npRound
  rw [Int.fract_zero]
  norm_num

lemma gaussKernel_pos {m n : ℕ} (strength : ℝ) (d : Grid m n) :
    0 < gaussKernel strength d :=
  mul_pos (Real.exp_pos _) (Real.exp_pos _)

lemma gaussKernel_sum_pos {m n : ℕ} [NeZero m] [NeZero n] (strength : ℝ) :
    0 < ∑ d : Grid m n, gaussKernel strength d := by
  haveI : Nonempty (Grid m n) := ⟨(0, 0)⟩
  exact Finset.sum_pos (fun d _ => gaussKernel_pos strength d) Finset.univ_nonempty

lemma gaussian_smoothing_zero {m n : ℕ} [NeZero m] [NeZero n] (strength : ℝ) :
    gaussian_smoothing (fun _ : Grid m n => (0:ℝ)) strength = fun _ => 0 := by
  funext x
  simp [gaussian_smoothing, gaussian_filter, npRound_zero]

lemma gaussKernel_sum_shift {m n : ℕ} [NeZero m] [NeZero n]
    (strength : ℝ) (x : Grid m n) :
    ∑ y : Grid m n, gaussKernel strength (x - y)
      = ∑ d : Grid m n, gaussKernel strength d :=
  Equiv.sum_comp (Equiv.subLeft x) (gaussKernel strength)

lemma gaussian_filter_const {m n : ℕ} [NeZero m] [NeZero n]
    (strength : ℝ) (c : ℝ) :
    gaussian_filter (fun _ : Grid m n => c) strength = fun _ => c := by
  funext x
  unfold gaussian_filter
  rw [← Finset.sum_mul, gaussKernel_sum_shift]
  exact mul_div_cancel_left₀ c (gaussKernel_sum_pos strength).ne'

lemma gaussian_filter_shift {m n : ℕ} [NeZero m] [NeZero n]
    (field : Grid m n → ℝ) (strength : ℝ) (t : Grid m n) :
    gaussian_filter (fun y => field (y + t)) strength
      = fun x => gaussian_filter field strength (x + t) := by
  funext x
  unfold gaussian_filter
  congr 1
  calc ∑ y, gaussKernel strength (x - y) * field (y + t)
      = ∑ z, gaussKernel strength (x - (z - t)) * field (z - t + t) :=
        (Equiv.sum_comp (Equiv.subRight t)
          fun y => gaussKernel strength (x - y) * field (y + t)).symm
    _ = ∑ z, gaussKernel strength (x + t - z) * field z := by
        apply Finset.sum_congr rfl
        intro z _
        have h1 : x - (z - t) = x + t - z := by ring
        have h2 : z - t + t = z := by ring
        rw [h1, h2]

lemma gaussian_smoothing_shift {m n : ℕ} [NeZero m] [NeZero n]
    (field : Grid m n → ℝ) (strength : ℝ) (t : Grid m n) :
    gaussian_smoothing (fun y => field (y + t)) strength
      = fun x => gaussian_smoothing field strength (x + t) := by
  funext x
  unfold gaussian_smoothing
  rw [gaussian_filter_shift]

end Mcrpy

namespace Mcrpy

lemma enc0_isOneHot : isOneHot enc0 := by
  intro x
  refine ⟨0, by simp [enc0], fun q hq => by simp [enc0, hq]⟩

/-! ### Claim theorems -/

/-- C1: For every microstructure with `has_phases` true and every one-hot
input encoding, after `smooth(microstructure, "gaussian", strength)`
completes, the sum across the phase axis of the written-back encoding equals
1 at every spatial location (it equals exactly 1, hence is within any
floating-point tolerance). -/
theorem C1_conservation {m n P : ℕ} [NeZero m] [NeZero n] [NeZero P]
    (ms : Microstructure m n P) (strength : ℝ) (ms2 : Microstructure m n P)
    (hph : ms.has_phases = true) (honehot : isOneHot ms.encoding)
    (hok : smooth ms "gaussian" strength = Except.ok ms2) :
    ∀ x, ∑ p, ms2.encoding x p = 1 := by
  intro x
  have hms2 : ms2.encoding = smooth_multiphase ms.encoding gaussian_smoothing strength := by
    simp [smooth, hph] at hok
    rw [← hok]
  rw [hms2]
  exact smooth_multiphase_sum_one ms.encoding gaussian_smoothing strength x

/-- Witness for C1 at a concrete uniform 4×4 two-phase microstructure. -/
theorem C1_conservation_witness :
    ms0.has_phases = true ∧ (∀ x, ∑ p, ms0smoothed.encoding x p = 1) :=
  ⟨rfl, C1_conservation ms0 1 ms0smoothed rfl enc0_isOneHot rfl⟩

/-- C2: for every one-hot input encoding, the dominant phase is the argmax of
the per-phase volume fractions, attaining their maximum, and on ties the
first maximal index is chosen. -/
theorem C2_dominant_selection {m n P : ℕ} [NeZero m] [NeZero n] [NeZero P]
    (enc : Grid m n → Fin P → ℝ) (honehot : isOneHot enc) :
    largest_phase enc = npArgmax (fun phase => vfs enc phase) ∧
    (∀ j, vfs enc j ≤ vfs enc (largest_phase enc)) ∧
    (∀ j, vfs enc j = vfs enc (largest_phase enc) → largest_phase enc ≤ j) :=
  ⟨rfl, fun j => npArgmax_le _ j, fun j hj => npArgmax_first _ j (le_of_eq hj.symm)⟩

/-- Witness for C2 at the concrete encoding `enc0`. -/
theorem C2_dominant_selection_witness :
    largest_phase enc0 = npArgmax (fun phase => vfs enc0 phase) ∧
    (∀ j, vfs enc0 j ≤ vfs enc0 (largest_phase enc0)) ∧
    (∀ j, vfs enc0 j = vfs enc0 (largest_phase enc0) → largest_phase enc0 ≤ j) :=
  C2_dominant_selection enc0 enc0_isOneHot

/-- C3: the dominant slice computed by the source's running subtraction
(all-ones start, subtracting each other smoothed slice in phase order)
equals the spec's `1 - sum(all other smoothed slices)`. -/
theorem C3_running_subtraction_equiv {m n P : ℕ} [NeZero m] [NeZero n] [NeZero P]
    (enc : Grid m n → Fin P → ℝ) (strength : ℝ) :
    runningSubtraction (fun p => gaussian_smoothing (fun y => enc y p) strength)
        (largest_phase enc)
      = complementOfOthers (fun p => gaussian_smoothing (fun y => enc y p) strength)
        (largest_phase enc) := by
  funext x
  exact runningSubtraction_eq _ _ x

/-- Witness for C3 at the concrete encoding `enc0` and strength 1. -/
theorem C3_running_subtraction_equiv_witness :
    runningSubtraction (fun p => gaussian_smoothing (fun y => enc0 y p) 1)
        (largest_phase enc0)
      = complementOfOthers (fun p => gaussian_smoothing (fun y => enc0 y p) 1)
        (largest_phase enc0) :=
  C3_running_subtraction_equiv enc0 1

/-- C4 counterexample: on a microstructure lacking phase information, a
non-"gaussian" method fails with the precondition violation (the assertion on
smooth.py line 33 runs before the method dispatch on line 34), not with an
`UnsupportedMethod` error, refuting the claim as stated for that input. -/
theorem C4_counterexample :
    smooth msNoPhases "bogus" 1 = Except.error SmoothError.preconditionViolation ∧
    isUnsupportedFailure (smooth msNoPhases "bogus" 1) = false :=
  ⟨rfl, rfl⟩

/-- C4 (amended): for every microstructure whose `has_phases` flag is true
and every method string other than "gaussian", `smooth` fails with an
`UnsupportedMethod` error whose message names the requested method, and no
mutated microstructure is produced (the scoped accessor is never entered). -/
theorem C4_unsupported_method {m n P : ℕ} [NeZero m] [NeZero n] [NeZero P]
    (ms : Microstructure m n P) (method : String) (strength : ℝ)
    (hph : ms.has_phases = true) (hm : method ≠ "gaussian") :
    smooth ms method strength
        = Except.error (SmoothError.unsupportedMethod (unsupportedMessage method)) ∧
    (∃ pre suf, unsupportedMessage method = pre ++ method ++ suf) ∧
    ∀ res, smooth ms method strength ≠ Except.ok res := by
  have h1 : smooth ms method strength
      = Except.error (SmoothError.unsupportedMethod (unsupportedMessage method)) := by
    unfold smooth
    rw [hph]
    simp [hm]
  exact ⟨h1, ⟨"Smoothing method ", " was chosen, but is not implemented.", rfl⟩,
    fun res hres => by rw [h1] at hres; exact Except.noConfusion hres⟩

/-- Witness for the amended C4 at a concrete ready microstructure and the
method "bogus". -/
theorem C4_unsupported_method_witness :
    smooth ms0 "bogus" 1
        = Except.error (SmoothError.unsupportedMethod (unsupportedMessage "bogus")) ∧
    (∃ pre suf, unsupportedMessage "bogus" = pre ++ "bogus" ++ suf) ∧
    ∀ res, smooth ms0 "bogus" 1 ≠ Except.ok res :=
  C4_unsupported_method ms0 "bogus" 1 rfl (by decide)

/-- C5: with `has_phases` false, `smooth` fails with the precondition
violation regardless of the requested method (the assertion runs before any
other step), and no mutated microstructure is produced. -/
theorem C5_precondition {m n P : ℕ} [NeZero m] [NeZero n] [NeZero P]
    (ms : Microstructure m n P) (method : String) (strength : ℝ)
    (hph : ms.has_phases = false) :
    smooth ms method strength = Except.error SmoothError.preconditionViolation ∧
    ∀ res, smooth ms method strength ≠ Except.ok res := by
  have h1 : smooth ms method strength = Except.error SmoothError.preconditionViolation := by
    unfold smooth
    rw [hph]
    simp
  exact ⟨h1, fun res hres => by rw [h1] at hres; exact Except.noConfusion hres⟩

/-- Witness for C5 at a concrete microstructure without phases. -/
theorem C5_precondition_witness :
    smooth msNoPhases "gaussian" 1 = Except.error SmoothError.preconditionViolation ∧
    ∀ res, smooth msNoPhases "gaussian" 1 ≠ Except.ok res :=
  C5_precondition msNoPhases "gaussian" 1 rfl

end Mcrpy

namespace Mcrpy

/-- C6: the gaussian smoothing filter is the pointwise integer rounding of
the isotropic wrap-around Gaussian blur of standard deviation `strength`
(shape preservation holds by typing: the output is a field on the same
grid); it commutes with toroidal shifts of the field (periodic wrap-around
boundary handling on every spatial axis), and the underlying normalized
blur preserves constant fields (its kernel has total mass 1). -/
theorem C6_gaussian_smoothing_contract {m n : ℕ} [NeZero m] [NeZero n]
    (field : Grid m n → ℝ) (strength : ℝ) (hpos : 0 < strength) :
    (gaussian_smoothing field strength
        = fun x => (npRound (gaussian_filter field strength x) : ℝ)) ∧
    (∀ x, ∃ k : ℤ, gaussian_smoothing field strength x = (k:ℝ)) ∧
    (∀ t, gaussian_smoothing (fun y => field (y + t)) strength
        = fun x => gaussian_smoothing field strength (x + t)) ∧
    (∀ c : ℝ, gaussian_filter (fun _ : Grid m n => c) strength = fun _ => c) :=
  ⟨rfl, fun x => ⟨npRound (gaussian_filter field strength x), rfl⟩,
    fun t => gaussian_smoothing_shift field strength t,
    fun c => gaussian_filter_const strength c⟩

/-- Witness for C6 at the concrete zero field and strength 1. -/
theorem C6_gaussian_smoothing_contract_witness :
    (0:ℝ) < 1 ∧
    ((gaussian_smoothing field0 1
        = fun x => (npRound (gaussian_filter field0 1 x) : ℝ)) ∧
     (∀ x, ∃ k : ℤ, gaussian_smoothing field0 1 x = (k:ℝ)) ∧
     (∀ t, gaussian_smoothing (fun y => field0 (y + t)) 1
         = fun x => gaussian_smoothing field0 1 (x + t)) ∧
     (∀ c : ℝ, gaussian_filter (fun _ : Grid 4 4 => c) 1 = fun _ => c)) :=
  ⟨by norm_num, C6_gaussian_smoothing_contract field0 1 (by norm_num)⟩

/-- C7: smoothing a uniform single-phase encoding (one phase is 1
everywhere, all others 0 everywhere) with the gaussian method leaves the
microstructure unchanged. -/
theorem C7_uniform_single_phase {m n P : ℕ} [NeZero m] [NeZero n] [NeZero P]
    (ms : Microstructure m n P) (p0 : Fin P) (strength : ℝ)
    (hph : ms.has_phases = true)
    (huni : ∀ x p, ms.encoding x p = if p = p0 then 1 else 0) :
    smooth ms "gaussian" strength = Except.ok ms := by
  haveI : Nonempty (Grid m n) := ⟨(0, 0)⟩
  have hcard : (Fintype.card (Grid m n) : ℝ) ≠ 0 :=
    Nat.cast_ne_zero.mpr Fintype.card_ne_zero
  have hvfs : ∀ p, vfs ms.encoding p = if p = p0 then 1 else 0 := by
    intro p
    unfold vfs
    by_cases hp : p = p0
    · subst hp
      rw [if_pos rfl]
      have hone : ∀ x ∈ Finset.univ, ms.encoding x p = 1 := fun x _ => by
        rw [huni, if_pos rfl]
      rw [Finset.sum_congr rfl hone, Finset.sum_const, nsmul_eq_mul, mul_one,
        Finset.card_univ]
      exact div_self hcard
    · rw [if_neg hp]
      have hzero : ∀ x ∈ Finset.univ, ms.encoding x p = 0 := fun x _ => by
        rw [huni, if_neg hp]
      rw [Finset.sum_congr rfl hzero, Finset.sum_const, smul_zero, zero_div]
  have hL : largest_phase ms.encoding = p0 := by
    by_contra hne
    have h1 : vfs ms.encoding p0 ≤ vfs ms.encoding (largest_phase ms.encoding) :=
      npArgmax_le (fun phase => vfs ms.encoding phase) p0
    rw [hvfs p0, hvfs (largest_phase ms.encoding), if_pos rfl, if_neg hne] at h1
    linarith
  have hslice : ∀ q, q ≠ p0 →
      gaussian_smoothing (fun y => ms.encoding y q) strength = fun _ => 0 := by
    intro q hq
    have hzf : (fun y => ms.encoding y q) = fun _ : Grid m n => (0:ℝ) :=
      funext fun y => by rw [huni, if_neg hq]
    rw [hzf, gaussian_smoothing_zero]
  have henc : smooth_multiphase ms.encoding gaussian_smoothing strength
      = ms.encoding := by
    funext x p
    by_cases hp : p = p0
    · subst hp
      simp only [smooth_multiphase, hL, if_pos rfl]
      rw [runningSubtraction_eq]
      have hz : ∀ q ∈ Finset.univ.erase p,
          gaussian_smoothing (fun y => ms.encoding y q) strength x = 0 := fun q hq => by
        rw [hslice q (Finset.ne_of_mem_erase hq)]
      rw [Finset.sum_congr rfl hz, Finset.sum_const, smul_zero, huni, if_pos rfl]
      norm_num
    · have hpL : p ≠ largest_phase ms.encoding := by rw [hL]; exact hp
      simp only [smooth_multiphase, if_neg hpL]
      rw [hslice p hp]
      simp [huni, hp]
  have hrun : smooth ms "gaussian" strength = Except.ok
      { ms with encoding := smooth_multiphase ms.encoding gaussian_smoothing strength } := by
    unfold smooth
    rw [hph]
    simp
  rw [hrun, henc]

/-- Witness for C7 at the concrete uniform single-phase microstructure. -/
theorem C7_uniform_single_phase_witness :
    ms0.has_phases = true ∧ smooth ms0 "gaussian" 1 = Except.ok ms0 :=
  ⟨rfl, C7_uniform_single_phase ms0 0 1 rfl (fun _ _ => rfl)⟩

/-- C8: for an input name `stem ++ ".npy"`, the derived output name is the
input minus its last four characters, then `"_"` plus the info tag when one
is supplied (nothing otherwise), then the fixed suffix `"_smoothed.npy"`. -/
theorem C8_output_filename (stem tag : List Char) :
    outputFilename (stem ++ ".npy".data) none = stem ++ "_smoothed.npy".data ∧
    outputFilename (stem ++ ".npy".data) (some tag)
      = stem ++ ('_' :: tag) ++ "_smoothed.npy".data := by
  have hstem : (stem ++ ".npy".data).take ((stem ++ ".npy".data).length - 4)
      = stem := by
    have h4 : ".npy".data.length = 4 := rfl
    rw [List.length_append, h4, Nat.add_sub_cancel]
    exact List.take_left stem ".npy".data
  constructor
  · simp [outputFilename, filenameAdditive, hstem]
  · simp [outputFilename, filenameAdditive, hstem]

/-- C9: the command-line entry point never reads the parsed `--method` and
`--strength` options: its result is unchanged under any values of the two
options and coincides with the invocation at the defaults
(`method="gaussian"`, `strength=1.0`). -/
theorem C9_cli_ignores_options {m n P : ℕ} [NeZero m] [NeZero n] [NeZero P]
    (fileExistsFlag : Bool) (filename : List Char)
    (methodA strengthA methodB strengthB : String)
    (info : Option (List Char)) (ms : Microstructure m n P) :
    mainModel fileExistsFlag filename methodA strengthA info ms
      = mainModel fileExistsFlag filename methodB strengthB info ms ∧
    mainModel fileExistsFlag filename methodA strengthA info ms
      = mainModel fileExistsFlag filename "gaussian" "1.0" info ms :=
  ⟨rfl, rfl⟩

/-- Witness for C9 at a concrete invocation with non-default options. -/
theorem C9_cli_ignores_options_witness :
    mainModel true "input.npy".data "bogus" "7.5" none ms0
      = mainModel true "input.npy".data "gaussian" "2.0" none ms0 ∧
    mainModel true "input.npy".data "bogus" "7.5" none ms0
      = mainModel true "input.npy".data "gaussian" "1.0" none ms0 :=
  C9_cli_ignores_options true "input.npy".data "bogus" "7.5" "gaussian" "2.0" none ms0

/-- C10: after gaussian smoothing, every non-dominant output slice is
integer-valued (the filter rounds its output), the dominant complement
slice is integer-valued as well, and the per-location sum across phases is
exactly 1. -/
theorem C10_integer_slices {m n P : ℕ} [NeZero m] [NeZero n] [NeZero P]
    (ms : Microstructure m n P) (strength : ℝ) (ms2 : Microstructure m n P)
    (hph : ms.has_phases = true)
    (hok : smooth ms "gaussian" strength = Except.ok ms2) :
    (∀ p, p ≠ largest_phase ms.encoding → ∀ x, ∃ k : ℤ, ms2.encoding x p = (k:ℝ)) ∧
    (∀ x, ∃ k : ℤ, ms2.encoding x (largest_phase ms.encoding) = (k:ℝ)) ∧
    (∀ x, ∑ p, ms2.encoding x p = 1) := by
  have hms2 : ms2.encoding = smooth_multiphase ms.encoding gaussian_smoothing strength := by
    simp [smooth, hph] at hok
    rw [← hok]
  refine ⟨?_, ?_, ?_⟩
  · intro p hp x
    rw [hms2]
    simp only [smooth_multiphase, if_neg hp]
    exact ⟨npRound (gaussian_filter (fun y => ms.encoding y p) strength x), rfl⟩
  · intro x
    rw [hms2]
    simp only [smooth_multiphase, if_pos rfl]
    rw [runningSubtraction_eq]
    simp only [gaussian_smoothing]
    refine ⟨1 - ∑ p ∈ Finset.univ.erase (largest_phase ms.encoding),
      npRound (gaussian_filter (fun y => ms.encoding y p) strength x), ?_⟩
    push_cast
    rfl
  · intro x
    rw [hms2]
    exact smooth_multiphase_sum_one ms.encoding gaussian_smoothing strength x

/-- Witness for C10 at the concrete uniform 4×4 two-phase microstructure. -/
theorem C10_integer_slices_witness :
    (∀ p, p ≠ largest_phase ms0.encoding →
      ∀ x, ∃ k : ℤ, ms0smoothed.encoding x p = (k:ℝ)) ∧
    (∀ x, ∃ k : ℤ, ms0smoothed.encoding x (largest_phase ms0.encoding) = (k:ℝ)) ∧
    (∀ x, ∑ p, ms0smoothed.encoding x p = 1) :=
  C10_integer_slices ms0 1 ms0smoothed rfl rfl

end Mcrpy
